import Mathlib

/-!
Shallow embedding of the notes application core
(`src/notes_frontend/src/App.js`) and proofs about it.

The React component state is modelled as an explicit `AppState` record and
the store operations (`createNote`, `deleteNote`, `updateNote`,
`selectNote`) as pure state transformers.  Effects of the JavaScript
runtime are made explicit arguments: the freshly generated identifier of
`cryptoRandomId()` and the clock reading of `Date.now()` are parameters of
the operations that use them.  A JavaScript function that ends without a
`return` statement yields `undefined`; such a return value is modelled as
`none`.
-/

namespace NotesApp

/-- One note record, exactly the object shape built by `createNote` in
App.js: fields `id`, `title`, `content` (strings) and `updatedAt`
(a `Date.now()` timestamp, a natural number of milliseconds). -/
structure Note where
  id : String
  title : String
  content : String
  updatedAt : Nat
deriving DecidableEq

/-- The App component state that the store operations touch: the `notes`
list and the `selectedId` (a string id or JavaScript `null`, modelled as
`Option String`).  The search query is passed separately to
`filteredNotes`. -/
structure AppState where
  notes : List Note
  selectedId : Option String
deriving DecidableEq

/-- The patch argument of `updateNote`: an object that may carry a `title`
and/or a `content` field; a missing field is `none`. -/
structure Patch where
  title : Option String := none
  content : Option String := none
deriving DecidableEq

/-- The object spread `{ ...n, ...patch, updatedAt: Date.now() }` of
App.js line 76: fields present in the patch override those of `n`, and
`updatedAt` is set to the current time.  The `id` is never part of a
patch. -/
def applyPatch (n : Note) (p : Patch) (now : Nat) : Note :=
  { id := n.id
    title := p.title.getD n.title
    content := p.content.getD n.content
    updatedAt := now }

/-- `createNote` (App.js lines 54-65): builds a note with the freshly
generated id, title `"Untitled note"`, empty content and the current
time, prepends it to the list and selects it.  The arrow function body
has no `return` statement, so the call expression evaluates to
`undefined`: the second component of the result is that return value,
always `none`. -/
def createNote (s : AppState) (id : String) (now : Nat) : AppState × Option String :=
  let newNote : Note := { id := id, title := "Untitled note", content := "", updatedAt := now }
  ({ notes := newNote :: s.notes, selectedId := some id }, none)

/-- `deleteNote` (App.js lines 68-71): keeps the notes whose id differs,
and clears the selection when the deleted id is the selected one
(`if (selectedId === id) setSelectedId(null)`). -/
def deleteNote (s : AppState) (id : String) : AppState :=
  { notes := s.notes.filter (fun n => n.id != id)
    selectedId := if s.selectedId = some id then none else s.selectedId }

/-- `updateNote` (App.js lines 74-78): maps over the list, replacing every
note whose id matches by the patched note with a fresh `updatedAt`. -/
def updateNote (s : AppState) (id : String) (p : Patch) (now : Nat) : AppState :=
  { s with notes := s.notes.map (fun n => if n.id = id then applyPatch n p now else n) }

/-- `selectNote` (App.js line 81): sets the selection to the given id. -/
def selectNote (s : AppState) (id : String) : AppState :=
  { s with selectedId := some id }

/-- The derived `selectedNote` (App.js lines 48-51):
`notes.find((n) => n.id === selectedId) || null`.  The strict equality
`n.id === selectedId` is false whenever `selectedId` is `null`. -/
def selectedNote (s : AppState) : Option Note :=
  s.notes.find? (fun n => some n.id == s.selectedId)

/-- `String.prototype.toLowerCase`, per character (ASCII case mapping,
as in `Char.toLower`). -/
def jsToLower (s : String) : String :=
  ⟨s.data.map Char.toLower⟩

/-- The JavaScript whitespace class used by `String.prototype.trim`:
tab, line feed, vertical tab, form feed, carriage return, space,
no-break space, line separator, paragraph separator and the byte order
mark. -/
def jsWhitespace (c : Char) : Bool :=
  c.toNat = 9 || c.toNat = 10 || c.toNat = 11 || c.toNat = 12 || c.toNat = 13 ||
  c.toNat = 32 || c.toNat = 160 || c.toNat = 8232 || c.toNat = 8233 || c.toNat = 65279

/-- `String.prototype.trim`: strips the whitespace class from both
ends. -/
def jsTrim (s : String) : String :=
  ⟨((s.data.dropWhile jsWhitespace).reverse.dropWhile jsWhitespace).reverse⟩

/-- `String.prototype.includes`: the argument occurs as a contiguous
substring. -/
def jsIncludes (s q : String) : Bool :=
  decide (q.data <:+: s.data)

/-- `query.trim().toLowerCase()` of App.js line 37. -/
def queryNorm (query : String) : String :=
  jsToLower (jsTrim query)

/-- The filter predicate of App.js lines 39-43, applied to an already
normalised query `q`:
`n.title.toLowerCase().includes(q) || n.content.toLowerCase().includes(q)`. -/
def matchesQuery (q : String) (n : Note) : Bool :=
  jsIncludes (jsToLower n.title) q || jsIncludes (jsToLower n.content) q

/-- The comparator `(a, b) => b.updatedAt - a.updatedAt` of App.js
line 45 orders `a` before `b` exactly when `b.updatedAt ≤ a.updatedAt`
(descending), keeping ties in input order under a stable sort. -/
def noteLE (a b : Note) : Bool :=
  decide (b.updatedAt ≤ a.updatedAt)

/-- The derived `filteredNotes` (App.js lines 36-46): if the normalised
query is non-empty, filter by `matchesQuery`; always sort the result by
`updatedAt` descending with the stable `[...items].sort`. -/
def filteredNotes (notes : List Note) (query : String) : List Note :=
  let q := queryNorm query
  let items := if q.length ≠ 0 then notes.filter (matchesQuery q) else notes
  items.mergeSort noteLE

/-- The editing buffer of `NoteEditor` (App.js lines 209-210): the local
`title`/`content` state mirroring the bound note. -/
structure EditorBuffer where
  title : String
  content : String
deriving DecidableEq

/-- Which of the two inputs a keystroke lands in. -/
inductive EditField where
  | title : EditField
  | content : EditField
deriving DecidableEq

/-- One user edit: at `time` (measured from the editor binding), the
given field is set to `value` (`setTitle`/`setContent`, App.js lines
228 and 241).  An edit event stands for a state update that actually
changes the field: React re-runs the `[title, content]` effect only
then. -/
structure EditEvent where
  time : Nat
  field : EditField
  value : String
deriving DecidableEq

/-- One invocation of `onChange({ title, content })` (App.js line 218):
`updateNote` is called at `time` with the buffered values. -/
structure CommitEvent where
  time : Nat
  title : String
  content : String
deriving DecidableEq

/-- A keystroke updates the buffer immediately. -/
def applyEdit (b : EditorBuffer) (e : EditEvent) : EditorBuffer :=
  match e.field with
  | .title => { b with title := e.value }
  | .content => { b with content := e.value }

/-- The edit actually changes the buffer (a `setState` to the current
value would bail out and not re-run the effect). -/
def editChanges (b : EditorBuffer) (e : EditEvent) : Prop :=
  applyEdit b e ≠ b

/-- The debounce interval of `setTimeout(..., 200)` (App.js line 218). -/
def debounceMs : Nat := 200

/-- The editor session state between events: the live buffer, the single
outstanding `setTimeout` (deadline and payload captured at scheduling
time), and the commits emitted so far. -/
structure SessionState where
  buffer : EditorBuffer
  pending : Option (Nat × EditorBuffer)
  commits : List CommitEvent
deriving DecidableEq

/-- Time passage up to instant `t`, including the re-render feedback of
the source: when the outstanding timer fires (`d ≤ t`), it calls
`onChange` with its captured payload; `updateNote` sets the notes state,
the App re-renders, and the inline `onChange` prop (App.js line 104) is
recreated, so the effect of lines 217-220 — whose dependency array
lists `onChange` — re-runs and schedules a new commit of the current
buffer `debounceMs` after the firing.  Firing therefore repeats every
`debounceMs` units up to instant `t`.  `fuel` bounds the recursion and
is chosen ample by `fireUpTo`. -/
def fireLoop : Nat → Nat → SessionState → SessionState
  | 0, _, st => st
  | _ + 1, _, ⟨b, none, cs⟩ => ⟨b, none, cs⟩
  | fuel + 1, t, ⟨b, some (d, p), cs⟩ =>
    if d ≤ t then
      fireLoop fuel t ⟨b, some (d + debounceMs, b), cs ++ [⟨d, p.title, p.content⟩]⟩
    else ⟨b, some (d, p), cs⟩

/-- Time passage up to instant `t`.  Each firing moves the deadline
ahead by `debounceMs ≥ 1`, so at most `t + 1` firings can be due by
instant `t`: that fuel always suffices. -/
def fireUpTo (st : SessionState) (t : Nat) : SessionState :=
  fireLoop (t + 1) t st

/-- Processing one edit (the effect of App.js lines 217-220 re-running
for a `[title, content]` change): any timers due by the edit's time
fire first, each firing rescheduling through the `onChange` feedback
(`fireUpTo`); the edit's re-render then cancels the outstanding timer by
the effect cleanup (`clearTimeout`), the buffer is updated, and a new
commit is scheduled `debounceMs` after the edit with the new buffer as
payload. -/
def editStep (st : SessionState) (e : EditEvent) : SessionState :=
  let st1 := fireUpTo st e.time
  let b := applyEdit st1.buffer e
  { buffer := b, pending := some (e.time + debounceMs, b), commits := st1.commits }

/-- Binding the editor to a note at time 0 (mount of `NoteEditor`): the
buffer is initialised from the note (App.js lines 209-215), and the
effect of lines 217-220 runs once on mount, scheduling a commit of the
unchanged buffer `debounceMs` later. -/
def initSession (note : Note) : SessionState :=
  { buffer := ⟨note.title, note.content⟩
    pending := some (debounceMs, ⟨note.title, note.content⟩)
    commits := [] }

/-- The commits produced by an editor session bound to `note` at time 0,
over a time-ordered list of edits, observed through instant `horizon`
with no user interaction after the last edit.  The feedback loop between
fired commits and the recreated `onChange` prop keeps rescheduling every
`debounceMs` units, so the commit stream never quiesces: it is cut at an
observation horizon rather than flushed. -/
def runSessionTo (note : Note) (edits : List EditEvent) (horizon : Nat) : List CommitEvent :=
  (fireUpTo (edits.foldl editStep (initSession note)) horizon).commits

/-- One store mutation, with the effectful inputs (generated id, clock
reading) recorded explicitly. -/
inductive StoreOp where
  | create (id : String) (now : Nat) : StoreOp
  | update (id : String) (p : Patch) (now : Nat) : StoreOp
  | delete (id : String) : StoreOp
deriving DecidableEq

/-- Applying one store operation to the state (the return value of
`createNote` is discarded here). -/
def applyOp (s : AppState) : StoreOp → AppState
  | .create id now => (createNote s id now).1
  | .update id p now => updateNote s id p now
  | .delete id => deleteNote s id

/-- A sequence of store operations, applied in order. -/
def applyOps (s : AppState) (ops : List StoreOp) : AppState :=
  ops.foldl applyOp s

/-- The ids currently in the collection. -/
def noteIds (s : AppState) : List String :=
  s.notes.map Note.id

/-- Invariant: ids are pairwise distinct. -/
def uniqueIds (s : AppState) : Prop :=
  (noteIds s).Nodup

/-- Every timestamp in the collection is at most `t` (all stamps were
taken from the clock no later than reading `t`). -/
def stampsLE (s : AppState) (t : Nat) : Prop :=
  ∀ n ∈ s.notes, n.updatedAt ≤ t

/-- The clock reading after an operation: `Date.now()` for the
operations that consult the clock, the previous reading otherwise. -/
def opClock (t : Nat) : StoreOp → Nat
  | .create _ now => now
  | .update _ _ now => now
  | .delete _ => t

/-- Environment assumptions for one operation: the clock has not gone
backwards, and a freshly generated id does not collide with an existing
one. -/
def opPre (t : Nat) (s : AppState) : StoreOp → Prop
  | .create id now => t ≤ now ∧ id ∉ noteIds s
  | .update _ _ now => t ≤ now
  | .delete _ => True

/-- A run is valid when every operation satisfies its environment
assumption in the state it is applied to. -/
def ValidRun : Nat → AppState → List StoreOp → Prop
  | _, _, [] => True
  | t, s, op :: ops => opPre t s op ∧ ValidRun (opClock t op) (applyOp s op) ops

/-- Looking a note up by id (as `selectedNote` does for the selected
id). -/
def findById (s : AppState) (id : String) : Option Note :=
  s.notes.find? (fun n => n.id == id)

/-- A JSON value, as produced by `JSON.parse` and consumed by
`JSON.stringify`.  Numbers are modelled by their integer fragment: the
application only ever stores `Date.now()` timestamps, which are
integers; fractional and exponent number lexemes are outside the model
(the parser treats them as unsupported input). -/
inductive Json where
  | null : Json
  | bool (b : Bool) : Json
  | num (n : Int) : Json
  | str (s : String) : Json
  | arr (elems : List Json) : Json
  | obj (members : List (String × Json)) : Json

/-- The decimal digit characters of `n`, most significant first: the
canonical rendering by `JSON.stringify` of the whole numbers the
application stores (`Date.now()` timestamps; the exponential rendering
JavaScript uses from 10^21 upward is outside the model). -/
def natChars (n : Nat) : List Char :=
  if n = 0 then ['0'] else ((Nat.digits 10 n).map (fun d => Char.ofNat (48 + d))).reverse

/-- Rendering of an integer: optional minus sign, then digits. -/
def intChars : Int → List Char
  | .ofNat n => natChars n
  | .negSucc m => '-' :: natChars (m + 1)

/-- Lowercase hexadecimal digit character. -/
def hexChar (d : Nat) : Char :=
  if d < 10 then Char.ofNat (48 + d) else Char.ofNat (87 + d)

/-- `JSON.stringify` string escaping for one character: quote and
backslash are backslash-escaped, the five control characters with short
escapes use them, every other control character below space becomes a
`\u00XX` escape, and all other characters are emitted literally. -/
def escChar (c : Char) : List Char :=
  if c = '"' then ['\\', '"']
  else if c = '\\' then ['\\', '\\']
  else if c.toNat = 8 then ['\\', 'b']
  else if c.toNat = 9 then ['\\', 't']
  else if c.toNat = 10 then ['\\', 'n']
  else if c.toNat = 12 then ['\\', 'f']
  else if c.toNat = 13 then ['\\', 'r']
  else if c.toNat < 32 then
    ['\\', 'u', '0', '0', hexChar (c.toNat / 16), hexChar (c.toNat % 16)]
  else [c]

/-- Escape a whole character sequence. -/
def escAll : List Char → List Char
  | [] => []
  | c :: cs => escChar c ++ escAll cs

/-- A stringified JSON string: quoted and escaped. -/
def strChars (s : String) : List Char :=
  '"' :: escAll s.data ++ ['"']

mutual

/-- `JSON.stringify`, to a character list: no added whitespace, object
keys in insertion order. -/
def stringifyChars : Json → List Char
  | .null => "null".data
  | .bool true => "true".data
  | .bool false => "false".data
  | .num n => intChars n
  | .str s => strChars s
  | .arr es => '[' :: elemsChars es
  | .obj ms => '{' :: membersChars ms

/-- Array elements: comma separated, closed by the bracket. -/
def elemsChars : List Json → List Char
  | [] => [']']
  | [j] => stringifyChars j ++ [']']
  | j :: js => stringifyChars j ++ ',' :: elemsChars js

/-- Object members: quoted key, colon, value; comma separated; closing
brace. -/
def membersChars : List (String × Json) → List Char
  | [] => ['}']
  | [(k, v)] => strChars k ++ ':' :: stringifyChars v ++ ['}']
  | (k, v) :: ms => strChars k ++ ':' :: stringifyChars v ++ ',' :: membersChars ms

end

/-- The JSON whitespace characters. -/
def isJsonWs (c : Char) : Bool :=
  c.toNat = 32 || c.toNat = 9 || c.toNat = 10 || c.toNat = 13

/-- Skip leading JSON whitespace. -/
def skipWs : List Char → List Char
  | c :: cs => if isJsonWs c then skipWs cs else c :: cs
  | [] => []

/-- Value of one hexadecimal digit character. -/
def hexVal (c : Char) : Option Nat :=
  if 48 ≤ c.toNat ∧ c.toNat ≤ 57 then some (c.toNat - 48)
  else if 97 ≤ c.toNat ∧ c.toNat ≤ 102 then some (c.toNat - 87)
  else if 65 ≤ c.toNat ∧ c.toNat ≤ 70 then some (c.toNat - 55)
  else none

/-- Value of a four-digit hexadecimal escape. -/
def hex4 (a b c d : Char) : Option Nat :=
  match hexVal a, hexVal b, hexVal c, hexVal d with
  | some va, some vb, some vc, some vd => some (va * 4096 + vb * 256 + vc * 16 + vd)
  | _, _, _, _ => none

/-- Prepend a decoded character to a string-parse result. -/
def pushChar (c : Char) (r : Option (List Char × List Char)) :
    Option (List Char × List Char) :=
  r.map (fun p => (c :: p.1, p.2))

mutual

/-- Parse the body of a JSON string after the opening quote, returning
the decoded characters and the input after the closing quote.  A raw
control character below space is a syntax error, as in `JSON.parse`. -/
def parseStrBody : List Char → Option (List Char × List Char)
  | [] => none
  | c :: cs =>
    if c = '"' then some ([], cs)
    else if c = '\\' then parseEsc cs
    else if c.toNat < 32 then none
    else pushChar c (parseStrBody cs)

/-- Parse one escape sequence after a backslash. -/
def parseEsc : List Char → Option (List Char × List Char)
  | [] => none
  | e :: cs =>
    if e = '"' then pushChar '"' (parseStrBody cs)
    else if e = '\\' then pushChar '\\' (parseStrBody cs)
    else if e = '/' then pushChar '/' (parseStrBody cs)
    else if e = 'b' then pushChar (Char.ofNat 8) (parseStrBody cs)
    else if e = 'f' then pushChar (Char.ofNat 12) (parseStrBody cs)
    else if e = 'n' then pushChar (Char.ofNat 10) (parseStrBody cs)
    else if e = 'r' then pushChar (Char.ofNat 13) (parseStrBody cs)
    else if e = 't' then pushChar (Char.ofNat 9) (parseStrBody cs)
    else if e = 'u' then parseUEsc cs
    else none

/-- Parse the four hex digits of a `\uXXXX` escape.  A high surrogate
must be followed by a low-surrogate escape, the pair denoting one code
point; a lone surrogate (legal for `JSON.parse`, which builds UTF-16
strings) has no counterpart among Unicode scalar values and is outside
this model. -/
def parseUEsc : List Char → Option (List Char × List Char)
  | a :: b :: c :: d :: cs =>
    match hex4 a b c d with
    | none => none
    | some n =>
      if n < 55296 ∨ 57343 < n then pushChar (Char.ofNat n) (parseStrBody cs)
      else if n ≤ 56319 then parseUPair n cs
      else none
  | _ => none

/-- Parse the low-surrogate escape following a high surrogate `n`. -/
def parseUPair (n : Nat) : List Char → Option (List Char × List Char)
  | '\\' :: 'u' :: a :: b :: c :: d :: cs =>
    match hex4 a b c d with
    | none => none
    | some m =>
      if 56320 ≤ m ∧ m ≤ 57343 then
        pushChar (Char.ofNat (65536 + (n - 55296) * 1024 + (m - 56320))) (parseStrBody cs)
      else none
  | _ => none

end

/-- Value of a decimal digit character. -/
def digitVal (c : Char) : Option Nat :=
  if 48 ≤ c.toNat ∧ c.toNat ≤ 57 then some (c.toNat - 48) else none

/-- Decimal digit test. -/
def isDigitCh (c : Char) : Bool :=
  decide (48 ≤ c.toNat ∧ c.toNat ≤ 57)

/-- Consume a maximal run of decimal digits. -/
def takeDigits : List Char → List Nat × List Char
  | c :: cs =>
    match digitVal c with
    | some d =>
      let p := takeDigits cs
      (d :: p.1, p.2)
    | none => ([], c :: cs)
  | [] => ([], [])

/-- After the digits of a number, `JSON.parse` would continue with a
fraction or an exponent; those lexemes are outside the integer fragment
modelled here, so they are treated as unsupported input. -/
def numTail (n : Nat) (rest : List Char) : Option (Nat × List Char) :=
  match rest with
  | c :: _ => if c = '.' ∨ c = 'e' ∨ c = 'E' then none else some (n, rest)
  | [] => some (n, [])

/-- Parse an unsigned JSON integer: a single `0`, or a nonzero digit
followed by more digits (a leading zero is a syntax error). -/
def parseNatNum : List Char → Option (Nat × List Char)
  | c :: cs =>
    match digitVal c with
    | none => none
    | some d =>
      if d = 0 then
        if cs.head?.any isDigitCh then none else numTail 0 cs
      else
        let p := takeDigits cs
        numTail (p.1.foldl (fun a d2 => 10 * a + d2) d) p.2
  | [] => none

/-- Parse a JSON number (integer fragment): optional minus sign, then an
unsigned integer. -/
def parseNum : List Char → Option (Int × List Char)
  | [] => none
  | c :: cs =>
    if c = '-' then (parseNatNum cs).map (fun p => (-(p.1 : Int), p.2))
    else (parseNatNum (c :: cs)).map (fun p => ((p.1 : Int), p.2))

/-- Expect a fixed literal continuation (the tails of `null`, `true`,
`false`). -/
def expectLit (lit : List Char) (j : Json) (cs : List Char) : Option (Json × List Char) :=
  if lit.isPrefixOf cs then some (j, cs.drop lit.length) else none

mutual

/-- Parse one JSON value, after skipping leading whitespace.  `fuel`
bounds the recursion depth; the top-level entry point passes more fuel
than any input of that length can consume. -/
def parseValue : Nat → List Char → Option (Json × List Char)
  | 0, _ => none
  | fuel + 1, cs =>
    match skipWs cs with
    | [] => none
    | c :: cs1 =>
      if c = 'n' then expectLit ['u', 'l', 'l'] Json.null cs1
      else if c = 't' then expectLit ['r', 'u', 'e'] (Json.bool true) cs1
      else if c = 'f' then expectLit ['a', 'l', 's', 'e'] (Json.bool false) cs1
      else if c = '"' then (parseStrBody cs1).map (fun p => (Json.str ⟨p.1⟩, p.2))
      else if c = '[' then
        if (skipWs cs1).head? = some ']' then some (Json.arr [], (skipWs cs1).tail)
        else (parseElemsRest fuel (skipWs cs1)).map (fun p => (Json.arr p.1, p.2))
      else if c = '{' then
        if (skipWs cs1).head? = some '}' then some (Json.obj [], (skipWs cs1).tail)
        else (parseMembersRest fuel (skipWs cs1)).map (fun p => (Json.obj p.1, p.2))
      else if c = '-' ∨ isDigitCh c then (parseNum (c :: cs1)).map (fun p => (Json.num p.1, p.2))
      else none

/-- Parse the elements of a non-empty array, including the closing
bracket. -/
def parseElemsRest : Nat → List Char → Option (List Json × List Char)
  | 0, _ => none
  | fuel + 1, cs =>
    match parseValue fuel cs with
    | none => none
    | some (j, rest) =>
      match skipWs rest with
      | ',' :: rest2 => (parseElemsRest fuel rest2).map (fun p => (j :: p.1, p.2))
      | ']' :: rest2 => some ([j], rest2)
      | _ => none

/-- Parse the members of a non-empty object, including the closing
brace. -/
def parseMembersRest : Nat → List Char → Option (List (String × Json) × List Char)
  | 0, _ => none
  | fuel + 1, cs =>
    match skipWs cs with
    | '"' :: cs1 =>
      match parseStrBody cs1 with
      | none => none
      | some (k, rest1) =>
        match skipWs rest1 with
        | ':' :: rest2 =>
          match parseValue fuel rest2 with
          | none => none
          | some (v, rest3) =>
            match skipWs rest3 with
            | ',' :: rest4 =>
              (parseMembersRest fuel rest4).map (fun p => ((⟨k⟩, v) :: p.1, p.2))
            | '}' :: rest4 => some ([(⟨k⟩, v)], rest4)
            | _ => none
        | _ => none
    | _ => none

end

/-- `JSON.parse`: parse one value, allow trailing whitespace, reject any
other trailing input (a thrown `SyntaxError` is `none`). -/
def jsonParse (s : String) : Option Json :=
  match parseValue (s.data.length + 1) s.data with
  | some (j, rest) => if skipWs rest = [] then some j else none
  | none => none

/-- The initial-state loader of App.js lines 19-26:
`localStorage.getItem` yields `null` (absent) or the stored blob; a
missing or empty blob yields `[]` (the empty string is falsy); a
`JSON.parse` exception is caught and yields `[]`; otherwise the parsed
value is returned as-is, whatever its shape. -/
def load (blob : Option String) : Json :=
  match blob with
  | none => Json.arr []
  | some raw =>
    if raw.data = [] then Json.arr []
    else
      match jsonParse raw with
      | some j => j
      | none => Json.arr []

/-- The persistence effect of App.js lines 31-33:
`JSON.stringify(notes)`, the serialised text written under the fixed
key (`notes` holds whatever `load` returned). -/
def saveJson (j : Json) : String :=
  ⟨stringifyChars j⟩

/-- The JSON value of one note as `JSON.stringify` sees it: keys in
insertion order id, title, content, updatedAt. -/
def noteToJson (n : Note) : Json :=
  Json.obj [("id", Json.str n.id), ("title", Json.str n.title),
    ("content", Json.str n.content), ("updatedAt", Json.num (n.updatedAt : Int))]

/-- Serialising a proper collection, as the persistence effect does when
the state holds an actual array of notes. -/
def save (notes : List Note) : String :=
  saveJson (Json.arr (notes.map noteToJson))

mutual

/-- Recursion-depth bound sufficient for `parseValue` on the rendering
of `j` (a proof device, not part of the source model). -/
def jsonFuel : Json → Nat
  | .null => 1
  | .bool _ => 1
  | .num _ => 1
  | .str _ => 1
  | .arr [] => 1
  | .arr (j :: js) => elemsFuelR (j :: js) + 1
  | .obj [] => 1
  | .obj (m :: ms) => membersFuelR (m :: ms) + 1

/-- Depth bound for `parseElemsRest` on a non-empty element list. -/
def elemsFuelR : List Json → Nat
  | [] => 1
  | [j] => jsonFuel j + 1
  | j :: js => max (jsonFuel j) (elemsFuelR js) + 1

/-- Depth bound for `parseMembersRest` on a non-empty member list. -/
def membersFuelR : List (String × Json) → Nat
  | [] => 1
  | [m] => jsonFuel m.2 + 1
  | m :: ms => max (jsonFuel m.2) (membersFuelR ms) + 1

end

/-- The characters after a rendered number must not extend its lexeme:
inside renderings they are a comma, a closing bracket or brace, or
nothing. -/
def numBoundary (rest : List Char) : Prop :=
  ∀ c, rest.head? = some c → isDigitCh c = false ∧ c ≠ '.' ∧ c ≠ 'e' ∧ c ≠ 'E'

theorem noteLE_trans (a b c : Note) (h1 : noteLE a b = true) (h2 : noteLE b c = true) :
    noteLE a c = true := by
  simp only [noteLE, decide_eq_true_eq] at *
  omega

theorem noteLE_total (a b : Note) : (noteLE a b || noteLE b a) = true := by
  simp only [noteLE, Bool.or_eq_true, decide_eq_true_eq]
  omega

theorem pairwise_noteLE_of_const (l : List Note) (k : Nat)
    (h : ∀ n ∈ l, n.updatedAt = k) : l.Pairwise (fun a b => noteLE a b = true) := by
  refine List.pairwise_of_forall_mem_list ?_
  intro a ha b hb
  simp only [noteLE, decide_eq_true_eq, h a ha, h b hb]
  omega

/-- Stability of the sort, phrased through tie classes: the notes with a
given `updatedAt` value appear in the sorted list exactly as they appear
in the input. -/
theorem mergeSort_tie_filter (l : List Note) (k : Nat) :
    (l.mergeSort noteLE).filter (fun n => n.updatedAt == k) =
      l.filter (fun n => n.updatedAt == k) := by
  set c := l.filter (fun n => n.updatedAt == k) with hc
  have hpair : c.Pairwise (fun a b => noteLE a b = true) := by
    refine pairwise_noteLE_of_const c k ?_
    intro n hn
    rw [hc] at hn
    have := (List.mem_filter.mp hn).2
    simpa using this
  have hsubl : c.Sublist (l.mergeSort noteLE) :=
    List.sublist_mergeSort noteLE_trans noteLE_total hpair (List.filter_sublist l)
  have hsubf : (c.filter (fun n => n.updatedAt == k)).Sublist
      ((l.mergeSort noteLE).filter (fun n => n.updatedAt == k)) :=
    hsubl.filter _
  have hcf : c.filter (fun n => n.updatedAt == k) = c := by
    rw [List.filter_eq_self]
    intro n hn
    rw [hc] at hn
    exact (List.mem_filter.mp hn).2
  rw [hcf] at hsubf
  have hperm : ((l.mergeSort noteLE).filter (fun n => n.updatedAt == k)).Perm c :=
    (List.mergeSort_perm l noteLE).filter _
  exact (hsubf.eq_of_length hperm.length_eq.symm).symm

/-- Two lists that are sorted for `noteLE`, are permutations of each
other, and list each `updatedAt` tie class in the same order, are
equal. -/
theorem sorted_tie_unique :
    ∀ (l₁ l₂ : List Note),
      l₁.Pairwise (fun a b => noteLE a b = true) →
      l₂.Pairwise (fun a b => noteLE a b = true) →
      l₁.Perm l₂ →
      (∀ k : Nat, l₁.filter (fun n => n.updatedAt == k) =
        l₂.filter (fun n => n.updatedAt == k)) →
      l₁ = l₂
  | [], l₂, _, _, hp, _ => (hp.symm.eq_nil).symm ▸ rfl
  | a :: t₁, [], _, _, hp, _ => absurd hp.eq_nil (by simp)
  | a :: t₁, b :: t₂, h₁, h₂, hp, hf => by
    have ha : ∀ x ∈ t₁, noteLE a x = true := fun x hx => List.rel_of_pairwise_cons h₁ hx
    have hb : ∀ x ∈ t₂, noteLE b x = true := fun x hx => List.rel_of_pairwise_cons h₂ hx
    have hkey : b.updatedAt = a.updatedAt := by
      have hbmem : b ∈ a :: t₁ := hp.mem_iff.mpr (List.mem_cons_self b t₂)
      have hamem : a ∈ b :: t₂ := hp.symm.mem_iff.mpr (List.mem_cons_self a t₁)
      rcases List.mem_cons.mp hbmem with hba | hbt
      · rw [hba]
      rcases List.mem_cons.mp hamem with hab | hat
      · rw [hab]
      have h1 := ha b hbt
      have h2 := hb a hat
      simp only [noteLE, decide_eq_true_eq] at h1 h2
      omega
    have hfa := hf a.updatedAt
    rw [List.filter_cons, List.filter_cons, hkey] at hfa
    simp only [beq_self_eq_true, if_true, List.cons.injEq] at hfa
    obtain ⟨hab, htaileq⟩ := hfa
    have htail : ∀ k : Nat, t₁.filter (fun n => n.updatedAt == k) =
        t₂.filter (fun n => n.updatedAt == k) := by
      intro k
      by_cases hk : k = a.updatedAt
      · subst hk
        exact htaileq
      · have hfk := hf k
        rw [List.filter_cons, List.filter_cons] at hfk
        have hna : (a.updatedAt == k) = false := by
          simp only [beq_eq_false_iff_ne, ne_eq]
          omega
        have hnb : (b.updatedAt == k) = false := by
          rw [hkey]
          simp only [beq_eq_false_iff_ne, ne_eq]
          omega
        rwa [hna, hnb] at hfk
    have hperm : t₁.Perm t₂ := by
      rw [hab] at hp
      exact hp.cons_inv
    rw [hab, sorted_tie_unique t₁ t₂ h₁.of_cons h₂.of_cons hperm htail]

/-- Claim C4: for every collection and query, `filteredNotes` returns
exactly the notes matching the normalised query when it is non-empty and
all notes when it is empty (stated as a permutation); the result is
always sorted by `updatedAt` descending; ties keep the original relative
order (each tie class is filtered out of the input unchanged); and for a
non-empty query the result is exactly the match-filter of the unfiltered
result, hence a sublist of it, preserving its descending order. -/
theorem claim_C4_filtered (notes : List Note) (query : String) :
    (filteredNotes notes query).Perm
      (if (queryNorm query).length ≠ 0
        then notes.filter (matchesQuery (queryNorm query)) else notes) ∧
    (filteredNotes notes query).Pairwise (fun a b => b.updatedAt ≤ a.updatedAt) ∧
    (∀ k : Nat, (filteredNotes notes query).filter (fun n => n.updatedAt == k) =
      (if (queryNorm query).length ≠ 0
        then notes.filter (matchesQuery (queryNorm query)) else notes).filter
        (fun n => n.updatedAt == k)) ∧
    ((queryNorm query).length ≠ 0 →
      filteredNotes notes query =
        (filteredNotes notes "").filter (matchesQuery (queryNorm query)) ∧
      (filteredNotes notes query).Sublist (filteredNotes notes "")) := by
  have hfn : filteredNotes notes query =
      (if (queryNorm query).length ≠ 0
        then notes.filter (matchesQuery (queryNorm query)) else notes).mergeSort noteLE := rfl
  have h0 : filteredNotes notes "" = notes.mergeSort noteLE := rfl
  refine ⟨?_, ?_, ?_, ?_⟩
  · rw [hfn]
    exact List.mergeSort_perm _ noteLE
  · refine (List.sorted_mergeSort noteLE_trans noteLE_total _).imp ?_
    intro a b hab
    simpa [noteLE] using hab
  · intro k
    rw [hfn]
    exact mergeSort_tie_filter _ k
  · intro hq
    rw [if_pos hq] at hfn
    have hmain : filteredNotes notes query =
        (filteredNotes notes "").filter (matchesQuery (queryNorm query)) := by
      rw [hfn, h0]
      refine sorted_tie_unique _ _
        (List.sorted_mergeSort noteLE_trans noteLE_total _)
        (List.Pairwise.filter _ (List.sorted_mergeSort noteLE_trans noteLE_total _))
        ?_ ?_
      · exact (List.mergeSort_perm _ noteLE).trans
          ((List.mergeSort_perm notes noteLE).filter _).symm
      · intro k
        rw [mergeSort_tie_filter]
        rw [List.filter_comm (fun n => n.updatedAt == k) (matchesQuery (queryNorm query))
          (notes.mergeSort noteLE)]
        rw [mergeSort_tie_filter]
        rw [List.filter_comm]
    exact ⟨hmain, by rw [hmain, h0]; exact List.filter_sublist _⟩

/-- Claim C4, witness at the concrete scenario of the specification:
notes Shopping (updatedAt 100) and Work (updatedAt 200) with query
`"shop"`; the filtered result is the match-filter of the unfiltered
sorted result and a sublist of it. -/
theorem claim_C4_witness :
    filteredNotes [⟨"a", "Shopping", "", 100⟩, ⟨"b", "Work", "", 200⟩] "shop" =
      (filteredNotes [⟨"a", "Shopping", "", 100⟩, ⟨"b", "Work", "", 200⟩] "").filter
        (matchesQuery (queryNorm "shop")) ∧
    (filteredNotes [⟨"a", "Shopping", "", 100⟩, ⟨"b", "Work", "", 200⟩] "shop").Sublist
      (filteredNotes [⟨"a", "Shopping", "", 100⟩, ⟨"b", "Work", "", 200⟩] "") :=
  (claim_C4_filtered [⟨"a", "Shopping", "", 100⟩, ⟨"b", "Work", "", 200⟩] "shop").2.2.2
    (by decide)

theorem fireLoop_not_due (fuel t d : Nat) (p b : EditorBuffer) (cs : List CommitEvent)
    (h : ¬ d ≤ t) :
    fireLoop fuel t ⟨b, some (d, p), cs⟩ = ⟨b, some (d, p), cs⟩ := by
  cases fuel with
  | zero => rfl
  | succ f =>
    show (if d ≤ t then
        fireLoop f t ⟨b, some (d + debounceMs, b), cs ++ [⟨d, p.title, p.content⟩]⟩
      else ⟨b, some (d, p), cs⟩) = ⟨b, some (d, p), cs⟩
    rw [if_neg h]

theorem fireLoop_due (fuel t d : Nat) (p b : EditorBuffer) (cs : List CommitEvent)
    (h : d ≤ t) :
    fireLoop (fuel + 1) t ⟨b, some (d, p), cs⟩ =
      fireLoop fuel t ⟨b, some (d + debounceMs, b), cs ++ [⟨d, p.title, p.content⟩]⟩ := by
  show (if d ≤ t then
      fireLoop fuel t ⟨b, some (d + debounceMs, b), cs ++ [⟨d, p.title, p.content⟩]⟩
    else ⟨b, some (d, p), cs⟩) =
    fireLoop fuel t ⟨b, some (d + debounceMs, b), cs ++ [⟨d, p.title, p.content⟩]⟩
  rw [if_pos h]

/-- Closed form of the firing loop: with the deadline `d` due and the
horizon `t` short of the `(k + 1)`-st reschedule, exactly `k + 1`
commits fire, at `d`, `d + debounceMs`, …, `d + debounceMs * k`, all
carrying the buffer, and the next deadline is `d + debounceMs * (k + 1)`
(stated for a state whose pending payload is its buffer, as in every
reachable state). -/
theorem fireLoop_closed : ∀ (k fuel t d : Nat) (b : EditorBuffer) (cs : List CommitEvent),
    d + debounceMs * k ≤ t → t < d + debounceMs * (k + 1) → k + 1 ≤ fuel →
    fireLoop fuel t ⟨b, some (d, b), cs⟩ =
      ⟨b, some (d + debounceMs * (k + 1), b),
        cs ++ (List.range (k + 1)).map
          (fun i => ⟨d + debounceMs * i, b.title, b.content⟩)⟩
  | 0, fuel, t, d, b, cs, h1, h2, hf => by
    obtain ⟨f, rfl⟩ : ∃ f, fuel = f + 1 := ⟨fuel - 1, by omega⟩
    have hd : d ≤ t := by simpa using h1
    have hnd : ¬ (d + debounceMs ≤ t) := by
      simp only [debounceMs] at h2 ⊢
      omega
    rw [fireLoop_due f t d b b cs hd,
      fireLoop_not_due f t (d + debounceMs) b b
        (cs ++ [(⟨d, b.title, b.content⟩ : CommitEvent)]) hnd]
    rfl
  | k + 1, fuel, t, d, b, cs, h1, h2, hf => by
    obtain ⟨f, rfl⟩ : ∃ f, fuel = f + 1 := ⟨fuel - 1, by omega⟩
    have hd : d ≤ t := by
      simp only [debounceMs] at h1
      omega
    rw [fireLoop_due f t d b b cs hd,
      fireLoop_closed k f t (d + debounceMs) b
        (cs ++ [(⟨d, b.title, b.content⟩ : CommitEvent)])
        (by simp only [debounceMs] at h1 ⊢; omega)
        (by simp only [debounceMs] at h2 ⊢; omega)
        (by omega)]
    have hpend : d + debounceMs + debounceMs * (k + 1) = d + debounceMs * (k + 1 + 1) := by
      simp only [debounceMs]
      ring
    have hcomm : (cs ++ [(⟨d, b.title, b.content⟩ : CommitEvent)]) ++
        (List.range (k + 1)).map
          (fun i => (⟨d + debounceMs + debounceMs * i, b.title, b.content⟩ : CommitEvent)) =
        cs ++ (List.range (k + 1 + 1)).map
          (fun i => (⟨d + debounceMs * i, b.title, b.content⟩ : CommitEvent)) := by
      rw [List.append_assoc, List.singleton_append]
      congr 1
      conv_rhs => rw [List.range_succ_eq_map]
      rw [List.map_cons, List.map_map]
      congr 1
      refine List.map_congr_left ?_
      intro a _
      show (⟨d + debounceMs + debounceMs * a, b.title, b.content⟩ : CommitEvent) =
        ⟨d + debounceMs * (a + 1), b.title, b.content⟩
      have ha : d + debounceMs + debounceMs * a = d + debounceMs * (a + 1) := by
        simp only [debounceMs]
        ring
      rw [ha]
    rw [hpend, hcomm]

theorem fireUpTo_not_due (t d : Nat) (p b : EditorBuffer) (cs : List CommitEvent)
    (h : t < d) :
    fireUpTo ⟨b, some (d, p), cs⟩ t = ⟨b, some (d, p), cs⟩ :=
  fireLoop_not_due (t + 1) t d p b cs (by omega)

theorem fireUpTo_closed (k t d : Nat) (b : EditorBuffer) (cs : List CommitEvent)
    (h1 : d + debounceMs * k ≤ t) (h2 : t < d + debounceMs * (k + 1)) :
    fireUpTo ⟨b, some (d, b), cs⟩ t =
      ⟨b, some (d + debounceMs * (k + 1), b),
        cs ++ (List.range (k + 1)).map
          (fun i => ⟨d + debounceMs * i, b.title, b.content⟩)⟩ :=
  fireLoop_closed k (t + 1) t d b cs h1 h2 (by simp only [debounceMs] at h1; omega)

theorem editStep_not_due (b p : EditorBuffer) (d t : Nat) (f : EditField) (v : String)
    (cs : List CommitEvent) (h : t < d) :
    editStep ⟨b, some (d, p), cs⟩ ⟨t, f, v⟩ =
      ⟨applyEdit b ⟨t, f, v⟩, some (t + debounceMs, applyEdit b ⟨t, f, v⟩), cs⟩ := by
  simp only [editStep]
  rw [fireUpTo_not_due t d p b cs h]

/-- Claim C1, counterexample: at the claim's own scenario (edits at
times 0 and 100, nothing afterwards) the source emits more than one
commit: the debounced commit at time 300 calls `updateNote`, the App
re-renders, the inline `onChange` prop in the effect's dependency array
(App.js lines 104 and 220) is recreated, so the effect re-runs and an
identical commit fires again at time 500 — two commits by that instant,
not exactly one. -/
theorem claim_C1_counterexample :
    runSessionTo ⟨"n", "T", "C", 0⟩
        [⟨0, EditField.title, "A"⟩, ⟨100, EditField.title, "AB"⟩] 500 =
      [⟨300, "AB", "C"⟩, ⟨500, "AB", "C"⟩] := rfl

/-- Claim C1 (amended): provided the first edit happens within the
debounce interval of the binding (`e1 < 200`, so the mount-scheduled
commit is still pending and gets cancelled), a session with exactly two
buffer-changing edits, E2 following E1 by 100 time units, emits no
commit through E2's instant; the first commit fires 200 time units
after E2 and carries the buffer as E2 left it, so E1's intermediate
values are never committed; and through each later horizon
`E2 + debounceMs * (k + 1)` the session has emitted exactly the `k + 1`
commits at times `E2 + debounceMs * (i + 1)`, all carrying E2's buffer
— the commit-to-re-render feedback repeats the same commit every
`debounceMs` units. -/
theorem claim_C1_debounce (note : Note) (e1 : Nat) (f1 f2 : EditField) (v1 v2 : String)
    (h : e1 < debounceMs)
    (_hc1 : editChanges ⟨note.title, note.content⟩ ⟨e1, f1, v1⟩)
    (_hc2 : editChanges (applyEdit ⟨note.title, note.content⟩ ⟨e1, f1, v1⟩)
      ⟨e1 + 100, f2, v2⟩) :
    runSessionTo note [⟨e1, f1, v1⟩, ⟨e1 + 100, f2, v2⟩] (e1 + 100) = [] ∧
    ∀ k : Nat, runSessionTo note [⟨e1, f1, v1⟩, ⟨e1 + 100, f2, v2⟩]
        (e1 + 100 + debounceMs * (k + 1)) =
      (List.range (k + 1)).map (fun i =>
        ⟨e1 + 100 + debounceMs * (i + 1),
         (applyEdit (applyEdit ⟨note.title, note.content⟩ ⟨e1, f1, v1⟩)
           ⟨e1 + 100, f2, v2⟩).title,
         (applyEdit (applyEdit ⟨note.title, note.content⟩ ⟨e1, f1, v1⟩)
           ⟨e1 + 100, f2, v2⟩).content⟩) := by
  have hfold : List.foldl editStep (initSession note) [⟨e1, f1, v1⟩, ⟨e1 + 100, f2, v2⟩] =
      ⟨applyEdit (applyEdit ⟨note.title, note.content⟩ ⟨e1, f1, v1⟩) ⟨e1 + 100, f2, v2⟩,
       some (e1 + 100 + debounceMs,
         applyEdit (applyEdit ⟨note.title, note.content⟩ ⟨e1, f1, v1⟩) ⟨e1 + 100, f2, v2⟩),
       []⟩ := by
    rw [List.foldl_cons, List.foldl_cons, List.foldl_nil]
    rw [show initSession note =
      ⟨⟨note.title, note.content⟩, some (debounceMs, ⟨note.title, note.content⟩), []⟩ from rfl]
    rw [editStep_not_due ⟨note.title, note.content⟩ ⟨note.title, note.content⟩ debounceMs e1
      f1 v1 [] h]
    rw [editStep_not_due (applyEdit ⟨note.title, note.content⟩ ⟨e1, f1, v1⟩)
      (applyEdit ⟨note.title, note.content⟩ ⟨e1, f1, v1⟩) (e1 + debounceMs) (e1 + 100)
      f2 v2 [] (by simp only [debounceMs]; omega)]
  constructor
  · show (fireUpTo (List.foldl editStep (initSession note)
      [⟨e1, f1, v1⟩, ⟨e1 + 100, f2, v2⟩]) (e1 + 100)).commits = []
    rw [hfold, fireUpTo_not_due (e1 + 100) (e1 + 100 + debounceMs) _ _ []
      (by simp only [debounceMs]; omega)]
  · intro k
    show (fireUpTo (List.foldl editStep (initSession note)
      [⟨e1, f1, v1⟩, ⟨e1 + 100, f2, v2⟩]) (e1 + 100 + debounceMs * (k + 1))).commits = _
    rw [hfold, fireUpTo_closed k (e1 + 100 + debounceMs * (k + 1)) (e1 + 100 + debounceMs)
      (applyEdit (applyEdit ⟨note.title, note.content⟩ ⟨e1, f1, v1⟩) ⟨e1 + 100, f2, v2⟩) []
      (by simp only [debounceMs]; omega) (by simp only [debounceMs]; omega)]
    rw [List.nil_append]
    refine List.map_congr_left ?_
    intro i _
    have hi : e1 + 100 + debounceMs + debounceMs * i = e1 + 100 + debounceMs * (i + 1) := by
      simp only [debounceMs]
      omega
    simp only [hi]

/-- Claim C1, witness: with E1 at time 0 and E2 at time 100 right after
binding, no commit has fired by time 100, and by time 300 exactly the
one commit at 300 with E2's buffer has fired. -/
theorem claim_C1_witness :
    runSessionTo ⟨"n", "T", "C", 7⟩
        [⟨0, EditField.title, "A"⟩, ⟨100, EditField.title, "AB"⟩] 100 = [] ∧
    runSessionTo ⟨"n", "T", "C", 7⟩
        [⟨0, EditField.title, "A"⟩, ⟨100, EditField.title, "AB"⟩] 300 =
      [⟨300, "AB", "C"⟩] := by
  have h := claim_C1_debounce ⟨"n", "T", "C", 7⟩ 0 EditField.title EditField.title "A" "AB"
    (by decide) (by simp [editChanges, applyEdit]) (by simp [editChanges, applyEdit])
  exact ⟨h.1, h.2 0⟩

/-- Claim C10: binding the editor to a note triggers a commit from the
mount effect alone, and the commit-to-re-render feedback keeps it
recurring: with no edit at all, no commit fires strictly before
`debounceMs`; through the horizon `debounceMs * (k + 1)` the session
has emitted exactly the commits at times `debounceMs * (i + 1)` for
`i ≤ k`, each carrying the note's unchanged title and content — in
particular the first fires `debounceMs` after binding; and applying
such a commit through the store's update patch yields the same note
with only `updatedAt` replaced by the commit-time clock: the note's
`updatedAt` is refreshed despite no visible change. -/
theorem claim_C10_bind_commit (note : Note) :
    runSessionTo note [] (debounceMs - 1) = [] ∧
    (∀ k : Nat, runSessionTo note [] (debounceMs * (k + 1)) =
      (List.range (k + 1)).map
        (fun i => ⟨debounceMs * (i + 1), note.title, note.content⟩)) ∧
    ∀ now : Nat, applyPatch note ⟨some note.title, some note.content⟩ now =
      { note with updatedAt := now } := by
  refine ⟨?_, ?_, fun _ => rfl⟩
  · show (fireUpTo ⟨⟨note.title, note.content⟩,
      some (debounceMs, ⟨note.title, note.content⟩), []⟩ (debounceMs - 1)).commits = []
    rw [fireUpTo_not_due (debounceMs - 1) debounceMs ⟨note.title, note.content⟩
      ⟨note.title, note.content⟩ [] (by simp only [debounceMs]; omega)]
  · intro k
    show (fireUpTo ⟨⟨note.title, note.content⟩,
      some (debounceMs, ⟨note.title, note.content⟩), []⟩ (debounceMs * (k + 1))).commits = _
    rw [fireUpTo_closed k (debounceMs * (k + 1)) debounceMs ⟨note.title, note.content⟩ []
      (by simp only [debounceMs]; omega) (by simp only [debounceMs]; omega)]
    rw [List.nil_append]
    refine List.map_congr_left ?_
    intro i _
    have hi : debounceMs + debounceMs * i = debounceMs * (i + 1) := by
      simp only [debounceMs]
      omega
    simp only [hi]

theorem patched_id (n : Note) (id : String) (p : Patch) (now : Nat) :
    (if n.id = id then applyPatch n p now else n).id = n.id := by
  by_cases h : n.id = id <;> simp [h, applyPatch]

theorem stampsLE_applyOp {s : AppState} {t : Nat} {op : StoreOp}
    (hst : stampsLE s t) (hpre : opPre t s op) :
    stampsLE (applyOp s op) (opClock t op) := by
  cases op with
  | create id now =>
    intro n hn
    rcases List.mem_cons.mp hn with h | h
    · rw [h]
      exact Nat.le_refl now
    · exact le_trans (hst n h) hpre.1
  | update id p now =>
    intro n hn
    rcases List.mem_map.mp hn with ⟨n0, hn0, hmap⟩
    by_cases h : n0.id = id
    · rw [← hmap, if_pos h]
      exact le_refl _
    · rw [← hmap, if_neg h]
      exact le_trans (hst n0 hn0) hpre
  | delete id =>
    intro n hn
    exact hst n (List.mem_of_mem_filter hn)

theorem uniqueIds_applyOp {s : AppState} {t : Nat} {op : StoreOp}
    (hu : uniqueIds s) (hpre : opPre t s op) :
    uniqueIds (applyOp s op) := by
  cases op with
  | create id now =>
    exact List.Nodup.cons hpre.2 hu
  | update id p now =>
    have hids : noteIds (applyOp s (StoreOp.update id p now)) = noteIds s := by
      show List.map Note.id (List.map _ s.notes) = List.map Note.id s.notes
      rw [List.map_map]
      exact List.map_congr_left (fun n _ => patched_id n id p now)
    show (noteIds _).Nodup
    rw [hids]
    exact hu
  | delete id =>
    have hsub : (noteIds (applyOp s (StoreOp.delete id))).Sublist (noteIds s) :=
      (List.filter_sublist s.notes).map Note.id
    exact hu.sublist hsub

theorem find?_filter_of_imp {α : Type} (p q : α → Bool) :
    ∀ (l : List α), (∀ x ∈ l, p x = true → q x = true) →
      (l.filter q).find? p = l.find? p
  | [], _ => rfl
  | a :: l, h => by
    have IH := find?_filter_of_imp p q l (fun x hx => h x (List.mem_cons_of_mem a hx))
    cases hq : q a with
    | true =>
      rw [List.filter_cons_of_pos hq, List.find?_cons, List.find?_cons]
      cases hp : p a with
      | true => rfl
      | false => exact IH
    | false =>
      have hp : p a = false := by
        cases hp : p a with
        | true => exact absurd (h a (List.mem_cons_self a l) hp) (by simp [hq])
        | false => rfl
      rw [List.filter_cons_of_neg (by simp [hq]), List.find?_cons, hp]
      exact IH

theorem mono_applyOp {s : AppState} {t : Nat} {op : StoreOp}
    (hst : stampsLE s t) (hpre : opPre t s op) :
    ∀ (id : String) (n m : Note), findById s id = some n →
      findById (applyOp s op) id = some m → n.updatedAt ≤ m.updatedAt := by
  intro id n m h1 h2
  cases op with
  | create cid now =>
    have h2a : List.find? (fun nn => nn.id == id)
        (Note.mk cid "Untitled note" "" now :: s.notes) = some m := h2
    by_cases hc : cid = id
    · have hb : ((Note.mk cid "Untitled note" "" now).id == id) = true := by simp [hc]
      rw [List.find?_cons_of_pos s.notes hb] at h2a
      have hm : m.updatedAt = now := by
        cases h2a
        rfl
      rw [hm]
      exact le_trans (hst n (List.mem_of_find?_eq_some h1)) hpre.1
    · have hb : ¬ ((Note.mk cid "Untitled note" "" now).id == id) = true := by simp [hc]
      rw [List.find?_cons_of_neg s.notes hb] at h2a
      rw [findById] at h1
      rw [h1] at h2a
      cases h2a
      exact le_refl _
  | update uid p now =>
    have h2a : (s.notes.map (fun n => if n.id = uid then applyPatch n p now else n)).find?
        (fun n => n.id == id) = some m := h2
    rw [List.find?_map] at h2a
    have hfun : ((fun n : Note => n.id == id) ∘
        (fun n => if n.id = uid then applyPatch n p now else n)) =
        (fun n : Note => n.id == id) := by
      funext n
      show ((if n.id = uid then applyPatch n p now else n).id == id) = (n.id == id)
      rw [patched_id]
    rw [hfun] at h2a
    rw [findById] at h1
    rw [h1] at h2a
    have hm : m = if n.id = uid then applyPatch n p now else n := by
      cases h2a
      rfl
    by_cases h : n.id = uid
    · rw [hm, if_pos h]
      exact le_trans (hst n (List.mem_of_find?_eq_some h1)) hpre
    · rw [hm, if_neg h]
  | delete did =>
    have h2a : (s.notes.filter (fun n => n.id != did)).find? (fun n => n.id == id) =
        some m := h2
    by_cases hcase : id = did
    · exfalso
      have hpm := List.find?_some h2a
      have hmem := List.mem_of_find?_eq_some h2a
      have hq := (List.mem_filter.mp hmem).2
      simp only [beq_iff_eq] at hpm
      simp only [bne_iff_ne, ne_eq] at hq
      exact hq (hpm.trans hcase)
    · rw [find?_filter_of_imp (fun n => n.id == id) (fun n => n.id != did) s.notes
        (fun x _ hx => by
          simp only [beq_iff_eq] at hx
          simp only [bne_iff_ne, ne_eq, hx]
          exact fun hxx => hcase hxx)] at h2a
      rw [findById] at h1
      rw [h1] at h2a
      cases h2a
      exact le_refl _

/-- Invariant preservation along a valid run, by induction over the
operation list: ids stay pairwise distinct, and a note found by id never
sees its `updatedAt` decrease across one step. -/
theorem storeRun_invariants :
    ∀ (ops : List StoreOp) (s : AppState) (t : Nat),
      uniqueIds s → stampsLE s t → ValidRun t s ops →
      uniqueIds (applyOps s ops) ∧
      ∀ (k : Nat) (id : String) (n m : Note),
        findById (applyOps s (ops.take k)) id = some n →
        findById (applyOps s (ops.take (k + 1))) id = some m →
        n.updatedAt ≤ m.updatedAt
  | [], s, t, hu, hst, hv => by
    refine ⟨hu, ?_⟩
    intro k id n m h1 h2
    rw [List.take_nil] at h1 h2
    have h1a : findById s id = some n := h1
    have h2a : findById s id = some m := h2
    rw [h1a] at h2a
    cases h2a
    exact le_refl _
  | op :: ops, s, t, hu, hst, hv => by
    obtain ⟨hpre, hv2⟩ : opPre t s op ∧ ValidRun (opClock t op) (applyOp s op) ops := hv
    have hu2 := uniqueIds_applyOp hu hpre
    have hst2 := stampsLE_applyOp hst hpre
    have IH := storeRun_invariants ops (applyOp s op) (opClock t op) hu2 hst2 hv2
    refine ⟨IH.1, ?_⟩
    intro k id n m h1 h2
    cases k with
    | zero =>
      have h1a : findById s id = some n := h1
      have h2a : findById (applyOp s op) id = some m := h2
      exact mono_applyOp hst hpre id n m h1a h2a
    | succ k =>
      have h1a : findById (applyOps (applyOp s op) (ops.take k)) id = some n := h1
      have h2a : findById (applyOps (applyOp s op) (ops.take (k + 1))) id = some m := h2
      exact IH.2 k id n m h1a h2a

/-- Claim C8: along any sequence of create/update/delete operations from
a state with pairwise-distinct ids, under the environment assumptions
that freshly generated ids do not collide and the clock never runs
backwards (every stamp present is at most the current reading), every
reachable collection keeps pairwise-distinct ids, and a note tracked by
id never sees its `updatedAt` decrease from one step to the next. -/
theorem claim_C8_invariants (s : AppState) (t : Nat) (ops : List StoreOp)
    (hu : uniqueIds s) (hst : stampsLE s t) (hv : ValidRun t s ops) :
    uniqueIds (applyOps s ops) ∧
    ∀ (k : Nat) (id : String) (n m : Note),
      findById (applyOps s (ops.take k)) id = some n →
      findById (applyOps s (ops.take (k + 1))) id = some m →
      n.updatedAt ≤ m.updatedAt :=
  storeRun_invariants ops s t hu hst hv

/-- Claim C8, witness on a concrete run: create a note at time 1, then
update its title at time 2; ids stay unique, and the tracked note's
`updatedAt` rises from 1 to 2. -/
theorem claim_C8_witness :
    uniqueIds (applyOps ⟨[], none⟩
      [StoreOp.create "a" 1, StoreOp.update "a" ⟨some "X", none⟩ 2]) ∧
    (Note.mk "a" "Untitled note" "" 1).updatedAt ≤ (Note.mk "a" "X" "" 2).updatedAt := by
  have hu : uniqueIds (⟨[], none⟩ : AppState) := by
    show List.Nodup []
    exact List.nodup_nil
  have hst : stampsLE (⟨[], none⟩ : AppState) 0 := by
    intro n hn
    cases hn
  have hv : ValidRun 0 ⟨[], none⟩
      [StoreOp.create "a" 1, StoreOp.update "a" ⟨some "X", none⟩ 2] := by
    refine ⟨⟨?_, ?_⟩, ?_, trivial⟩
    · show (0 : Nat) ≤ 1
      decide
    · show "a" ∉ ([] : List String)
      decide
    · show (1 : Nat) ≤ 2
      decide
  have h := claim_C8_invariants ⟨[], none⟩ 0
    [StoreOp.create "a" 1, StoreOp.update "a" ⟨some "X", none⟩ 2] hu hst hv
  refine ⟨h.1, ?_⟩
  exact h.2 1 "a" (Note.mk "a" "Untitled note" "" 1) (Note.mk "a" "X" "" 2) rfl rfl

/-- Claim C2, counterexample: `createNote` inserts a note whose id is the
freshly generated `"a"`, but the call evaluates to `undefined` (`none`),
not to that id, because the arrow function body never returns it.  The
claim that the value returned by create() equals the id of the new note
is therefore false. -/
theorem claim_C2_counterexample :
    (createNote ⟨[], none⟩ "a" 0).1.notes.map Note.id = ["a"] ∧
    (createNote ⟨[], none⟩ "a" 0).2 ≠ some "a" := by
  constructor
  · rfl
  · simp [createNote]

/-- Claim C2 (amended): `createNote` inserts at the head a note carrying
the freshly generated id, default title `"Untitled note"`, empty content
and the current time, and sets it as the selection; the call itself
returns no value (`undefined`, modelled as `none`). -/
theorem claim_C2_create (s : AppState) (id : String) (now : Nat) :
    (createNote s id now).1.notes =
      { id := id, title := "Untitled note", content := "", updatedAt := now } :: s.notes ∧
    (createNote s id now).1.selectedId = some id ∧
    (createNote s id now).2 = none :=
  ⟨rfl, rfl, rfl⟩

/-- Claim C5: `deleteNote id` keeps exactly the notes whose id differs
from `id` (removing the note when present, a no-op when absent); if the
deleted id was selected the selection is cleared and `selectedNote`
returns none afterwards; deleting a non-selected id leaves the selection
unchanged. -/
theorem claim_C5_delete (s : AppState) (id : String) :
    (∀ n : Note, n ∈ (deleteNote s id).notes ↔ n ∈ s.notes ∧ n.id ≠ id) ∧
    ((∀ n ∈ s.notes, n.id ≠ id) → (deleteNote s id).notes = s.notes) ∧
    (s.selectedId = some id →
      (deleteNote s id).selectedId = none ∧ selectedNote (deleteNote s id) = none) ∧
    (s.selectedId ≠ some id → (deleteNote s id).selectedId = s.selectedId) := by
  refine ⟨?_, ?_, ?_, ?_⟩
  · intro n
    simp [deleteNote, List.mem_filter]
  · intro h
    show List.filter _ s.notes = s.notes
    rw [List.filter_eq_self]
    intro n hn
    simpa using h n hn
  · intro h
    refine ⟨by simp [deleteNote, h], ?_⟩
    rw [selectedNote, List.find?_eq_none]
    intro n _
    simp [deleteNote, h]
  · intro h
    simp [deleteNote, h]

/-- Claim C5, witness at a concrete state: deleting the selected note
clears the selection and `selectedNote` then returns none. -/
theorem claim_C5_witness :
    (deleteNote ⟨[⟨"a", "T", "C", 1⟩], some "a"⟩ "a").selectedId = none ∧
    selectedNote (deleteNote ⟨[⟨"a", "T", "C", 1⟩], some "a"⟩ "a") = none :=
  (claim_C5_delete ⟨[⟨"a", "T", "C", 1⟩], some "a"⟩ "a").2.2.1 rfl

/-- Claim C6: `updateNote id patch now` keeps the list length; leaves
every note with a different id unchanged; replaces a note carrying the id
by the note with exactly the patched fields overridden and `updatedAt`
set to the current time (unpatched fields are kept via `getD`); and is a
no-op when no note carries the id.  It is a total function, so no error
is ever raised. -/
theorem claim_C6_update (s : AppState) (id : String) (p : Patch) (now : Nat) :
    (updateNote s id p now).notes.length = s.notes.length ∧
    (∀ (i : Nat) (n : Note), s.notes[i]? = some n → n.id ≠ id →
      (updateNote s id p now).notes[i]? = some n) ∧
    (∀ (i : Nat) (n : Note), s.notes[i]? = some n → n.id = id →
      (updateNote s id p now).notes[i]? =
        some { id := n.id, title := p.title.getD n.title,
               content := p.content.getD n.content, updatedAt := now }) ∧
    ((∀ n ∈ s.notes, n.id ≠ id) → (updateNote s id p now).notes = s.notes) := by
  refine ⟨by simp [updateNote], ?_, ?_, ?_⟩
  · intro i n hi hne
    simp [updateNote, List.getElem?_map, hi, hne]
  · intro i n hi heq
    simp [updateNote, List.getElem?_map, hi, heq, applyPatch]
  · intro h
    show List.map _ s.notes = s.notes
    have h2 : List.map (fun n => if n.id = id then applyPatch n p now else n) s.notes =
        List.map (fun n => n) s.notes :=
      List.map_congr_left (fun n hn => by simp [h n hn])
    rw [h2]
    simp

/-- Claim C6, witness at a concrete state: updating an existing id
patches the title, keeps the unpatched content and refreshes
`updatedAt`. -/
theorem claim_C6_witness :
    (updateNote ⟨[⟨"a", "T", "C", 1⟩], none⟩ "a" ⟨some "T2", none⟩ 5).notes[0]? =
      some ⟨"a", "T2", "C", 5⟩ := by
  have h := (claim_C6_update ⟨[⟨"a", "T", "C", 1⟩], none⟩ "a" ⟨some "T2", none⟩ 5).2.2.1
    0 ⟨"a", "T", "C", 1⟩ rfl rfl
  simpa using h

/-- Claim C9: when the selection equals `id`, `deleteNote id` clears the
selection even if no note with that id exists, and in that dangling case
the collection itself is unchanged. -/
theorem claim_C9_dangling (s : AppState) (id : String) (h : s.selectedId = some id) :
    (deleteNote s id).selectedId = none ∧
    (id ∉ s.notes.map Note.id → (deleteNote s id).notes = s.notes) := by
  refine ⟨by simp [deleteNote, h], ?_⟩
  intro hni
  show List.filter _ s.notes = s.notes
  rw [List.filter_eq_self]
  intro n hn
  simp only [List.mem_map] at hni
  simpa using fun heq => hni ⟨n, hn, heq⟩

/-- Claim C9, witness at a concrete state: the selection `"a"` dangles
(the only note has id `"b"`); deleting `"a"` clears the selection and
leaves the collection unchanged. -/
theorem claim_C9_witness :
    (deleteNote ⟨[⟨"b", "T", "C", 1⟩], some "a"⟩ "a").selectedId = none ∧
    (deleteNote ⟨[⟨"b", "T", "C", 1⟩], some "a"⟩ "a").notes = [⟨"b", "T", "C", 1⟩] :=
  ⟨(claim_C9_dangling ⟨[⟨"b", "T", "C", 1⟩], some "a"⟩ "a" rfl).1,
   (claim_C9_dangling ⟨[⟨"b", "T", "C", 1⟩], some "a"⟩ "a" rfl).2 (by decide)⟩

theorem hexVal_hexChar (d : Nat) (h : d < 16) : hexVal (hexChar d) = some d := by
  interval_cases d <;> rfl

theorem digitVal_digitChar (d : Nat) (h : d < 10) :
    digitVal (Char.ofNat (48 + d)) = some d := by
  interval_cases d <;> rfl

theorem digitVal_eq_none {c : Char} (h : isDigitCh c = false) : digitVal c = none := by
  rw [digitVal, if_neg]
  intro hc
  rw [isDigitCh, decide_eq_false_iff_not] at h
  exact h hc

theorem ofDigits_foldr (L : List Nat) :
    L.foldr (fun x y => 10 * y + x) 0 = Nat.ofDigits 10 L := by
  induction L with
  | nil => rfl
  | cons d L ih =>
    rw [List.foldr_cons, ih, Nat.ofDigits_cons]
    omega

theorem isDigitCh_digitChar (d : Nat) (h : d < 10) :
    isDigitCh (Char.ofNat (48 + d)) = true := by
  interval_cases d <;> rfl

theorem natChars_head_digit (k : Nat) :
    ∃ c cs, natChars k = c :: cs ∧ isDigitCh c = true := by
  by_cases hk : k = 0
  · subst hk
    exact ⟨'0', [], rfl, rfl⟩
  · rw [natChars, if_neg hk]
    have hdig : Nat.digits 10 k ≠ [] := Nat.digits_ne_nil_iff_ne_zero.mpr hk
    rcases hrev : (Nat.digits 10 k).reverse with _ | ⟨d, ds⟩
    · exact absurd (List.reverse_eq_nil_iff.mp hrev) hdig
    · have hd10 : d < 10 := Nat.digits_lt_base (by omega)
        (List.mem_reverse.mp (hrev ▸ List.mem_cons_self d ds))
      refine ⟨Char.ofNat (48 + d), ds.map (fun x => Char.ofNat (48 + x)), ?_,
        isDigitCh_digitChar d hd10⟩
      rw [← List.map_reverse, hrev, List.map_cons]

theorem takeDigits_append (ds : List Nat) (rest : List Char)
    (hds : ∀ d ∈ ds, d < 10) (hrest : numBoundary rest) :
    takeDigits (ds.map (fun d => Char.ofNat (48 + d)) ++ rest) = (ds, rest) := by
  induction ds with
  | nil =>
    simp only [List.map_nil, List.nil_append]
    match rest with
    | [] => rfl
    | c :: cs =>
      have hc := (hrest c rfl).1
      rw [takeDigits, digitVal_eq_none hc]
  | cons d ds ih =>
    have hd := hds d (List.mem_cons_self d ds)
    have ih2 := ih (fun x hx => hds x (List.mem_cons_of_mem d hx))
    simp only [List.map_cons, List.cons_append]
    rw [takeDigits, digitVal_digitChar d hd, ih2]

theorem numTail_boundary (n : Nat) (rest : List Char) (h : numBoundary rest) :
    numTail n rest = some (n, rest) := by
  match rest with
  | [] => rfl
  | c :: cs =>
    have hc := h c rfl
    rw [numTail, if_neg]
    push_neg
    exact ⟨hc.2.1, hc.2.2.1, hc.2.2.2⟩

theorem parseNatNum_natChars (n : Nat) (rest : List Char) (h : numBoundary rest) :
    parseNatNum (natChars n ++ rest) = some (n, rest) := by
  by_cases hn : n = 0
  · subst hn
    rw [natChars, if_pos rfl]
    show parseNatNum ('0' :: rest) = some (0, rest)
    rw [parseNatNum.eq_def]
    have h0 : digitVal '0' = some 0 := rfl
    simp only [h0, if_pos rfl]
    have hhead : rest.head?.any isDigitCh = false := by
      match rest with
      | [] => rfl
      | c :: cs =>
        show isDigitCh c = false
        exact (h c rfl).1
    rw [hhead]
    simp only [Bool.false_eq_true, if_false]
    exact numTail_boundary 0 rest h
  · rw [natChars, if_neg hn]
    have hdig : Nat.digits 10 n ≠ [] := Nat.digits_ne_nil_iff_ne_zero.mpr hn
    rcases hrev : (Nat.digits 10 n).reverse with _ | ⟨d, ds⟩
    · exact absurd (List.reverse_eq_nil_iff.mp hrev) hdig
    · have hmemrev : ∀ x ∈ d :: ds, x < 10 := by
        intro x hx
        rw [← hrev] at hx
        exact Nat.digits_lt_base (by omega) (List.mem_reverse.mp hx)
      have hd10 : d < 10 := hmemrev d (List.mem_cons_self d ds)
      have hd0 : d ≠ 0 := by
        have hlast : (Nat.digits 10 n).getLast hdig ≠ 0 :=
          Nat.getLast_digit_ne_zero 10 hn
        have heq : Nat.digits 10 n = ds.reverse ++ [d] := by
          have h2 := congrArg List.reverse hrev
          simpa using h2
        have h3 : (Nat.digits 10 n).getLast? = some ((Nat.digits 10 n).getLast hdig) :=
          List.getLast?_eq_getLast _ hdig
        have h4 : (Nat.digits 10 n).getLast? = some d := by
          rw [heq]
          exact List.getLast?_concat _
        rw [h3] at h4
        have h5 : (Nat.digits 10 n).getLast hdig = d := by
          cases h4
          rfl
        rw [← h5]
        exact hlast
      have hmap : ((Nat.digits 10 n).map (fun x => Char.ofNat (48 + x))).reverse =
          Char.ofNat (48 + d) :: ds.map (fun x => Char.ofNat (48 + x)) := by
        rw [← List.map_reverse, hrev, List.map_cons]
      rw [hmap, List.cons_append, parseNatNum.eq_def]
      simp only [digitVal_digitChar d hd10]
      rw [if_neg hd0]
      rw [takeDigits_append ds rest (fun x hx => hmemrev x (List.mem_cons_of_mem d hx)) h]
      have hval : List.foldl (fun a d2 => 10 * a + d2) d ds = n := by
        have h1 : List.foldl (fun a d2 => 10 * a + d2) 0 ((Nat.digits 10 n).reverse) = n := by
          rw [List.foldl_reverse]
          rw [show (fun (x : Nat) (y : Nat) =>
            (fun (a : Nat) (d2 : Nat) => 10 * a + d2) y x) =
            (fun (x : Nat) (y : Nat) => 10 * y + x) from rfl]
          rw [ofDigits_foldr]
          exact_mod_cast Nat.ofDigits_digits 10 n
        rw [hrev, List.foldl_cons] at h1
        simpa using h1
      show numTail (List.foldl (fun a d2 => 10 * a + d2) d ds) rest = some (n, rest)
      rw [hval]
      exact numTail_boundary n rest h

theorem parseNum_natChars (k : Nat) (rest : List Char) (h : numBoundary rest) :
    parseNum (natChars k ++ rest) = some ((k : Int), rest) := by
  obtain ⟨c, cs, hcs, hdg⟩ := natChars_head_digit k
  have hnotminus : c ≠ '-' := by
    intro he
    rw [he] at hdg
    exact absurd hdg (by decide)
  rw [hcs, List.cons_append, parseNum, if_neg hnotminus, ← List.cons_append, ← hcs]
  rw [parseNatNum_natChars k rest h]
  rfl

theorem parseStrBody_escAll : ∀ (l rest : List Char),
    parseStrBody (escAll l ++ '"' :: rest) = some (l, rest)
  | [], rest => rfl
  | c :: l, rest => by
    have IH := parseStrBody_escAll l rest
    by_cases h1 : c = '"'
    · subst h1
      show pushChar '"' (parseStrBody (escAll l ++ '"' :: rest)) = some ('"' :: l, rest)
      rw [IH]
      rfl
    by_cases h2 : c = '\\'
    · subst h2
      show pushChar '\\' (parseStrBody (escAll l ++ '"' :: rest)) = some ('\\' :: l, rest)
      rw [IH]
      rfl
    by_cases h3 : c.toNat = 8
    · have hc : c = Char.ofNat 8 := by rw [← h3, Char.ofNat_toNat]
      subst hc
      show pushChar (Char.ofNat 8) (parseStrBody (escAll l ++ '"' :: rest)) =
        some (Char.ofNat 8 :: l, rest)
      rw [IH]
      rfl
    by_cases h4 : c.toNat = 9
    · have hc : c = Char.ofNat 9 := by rw [← h4, Char.ofNat_toNat]
      subst hc
      show pushChar (Char.ofNat 9) (parseStrBody (escAll l ++ '"' :: rest)) =
        some (Char.ofNat 9 :: l, rest)
      rw [IH]
      rfl
    by_cases h5 : c.toNat = 10
    · have hc : c = Char.ofNat 10 := by rw [← h5, Char.ofNat_toNat]
      subst hc
      show pushChar (Char.ofNat 10) (parseStrBody (escAll l ++ '"' :: rest)) =
        some (Char.ofNat 10 :: l, rest)
      rw [IH]
      rfl
    by_cases h6 : c.toNat = 12
    · have hc : c = Char.ofNat 12 := by rw [← h6, Char.ofNat_toNat]
      subst hc
      show pushChar (Char.ofNat 12) (parseStrBody (escAll l ++ '"' :: rest)) =
        some (Char.ofNat 12 :: l, rest)
      rw [IH]
      rfl
    by_cases h7 : c.toNat = 13
    · have hc : c = Char.ofNat 13 := by rw [← h7, Char.ofNat_toNat]
      subst hc
      show pushChar (Char.ofNat 13) (parseStrBody (escAll l ++ '"' :: rest)) =
        some (Char.ofNat 13 :: l, rest)
      rw [IH]
      rfl
    by_cases h8 : c.toNat < 32
    · have hesc : escChar c =
          ['\\', 'u', '0', '0', hexChar (c.toNat / 16), hexChar (c.toNat % 16)] := by
        rw [escChar, if_neg h1, if_neg h2, if_neg h3, if_neg h4, if_neg h5, if_neg h6,
          if_neg h7, if_pos h8]
      have hall : escAll (c :: l) = escChar c ++ escAll l := rfl
      have hx : hex4 '0' '0' (hexChar (c.toNat / 16)) (hexChar (c.toNat % 16)) =
          some c.toNat := by
        have hv0 : hexVal '0' = some 0 := rfl
        rw [hex4, hv0, hexVal_hexChar (c.toNat / 16) (by omega),
          hexVal_hexChar (c.toNat % 16) (by omega)]
        show some (0 * 4096 + 0 * 256 + c.toNat / 16 * 16 + c.toNat % 16) = some c.toNat
        congr 1
        omega
      rw [hall, hesc]
      show parseUEsc ('0' :: '0' :: hexChar (c.toNat / 16) :: hexChar (c.toNat % 16) ::
        (escAll l ++ '"' :: rest)) = some (c :: l, rest)
      rw [parseUEsc, hx]
      show (if c.toNat < 55296 ∨ 57343 < c.toNat then
          pushChar (Char.ofNat c.toNat) (parseStrBody (escAll l ++ '"' :: rest))
        else if c.toNat ≤ 56319 then parseUPair c.toNat (escAll l ++ '"' :: rest)
        else none) = some (c :: l, rest)
      rw [if_pos (Or.inl (by omega)), IH, Char.ofNat_toNat]
      rfl
    · have hesc : escChar c = [c] := by
        rw [escChar, if_neg h1, if_neg h2, if_neg h3, if_neg h4, if_neg h5, if_neg h6,
          if_neg h7, if_neg h8]
      have hall : escAll (c :: l) = escChar c ++ escAll l := rfl
      rw [hall, hesc]
      show parseStrBody (c :: (escAll l ++ '"' :: rest)) = some (c :: l, rest)
      rw [parseStrBody, if_neg h1, if_neg h2, if_neg h8, IH]
      rfl

theorem skipWs_cons {c : Char} (h : isJsonWs c = false) (cs : List Char) :
    skipWs (c :: cs) = c :: cs := by
  rw [skipWs, h]
  rfl

theorem isPrefixOf_append (lit rest : List Char) : lit.isPrefixOf (lit ++ rest) = true := by
  induction lit with
  | nil => cases rest <;> rfl
  | cons a as ih => simp [List.isPrefixOf, ih]

theorem expectLit_append (lit : List Char) (j : Json) (rest : List Char) :
    expectLit lit j (lit ++ rest) = some (j, rest) := by
  rw [expectLit, if_pos (isPrefixOf_append lit rest), List.drop_left]

theorem digit_facts {c : Char} (h : isDigitCh c = true) :
    isJsonWs c = false ∧ c ≠ 'n' ∧ c ≠ 't' ∧ c ≠ 'f' ∧ c ≠ '"' ∧ c ≠ '[' ∧
      c ≠ '{' ∧ c ≠ ']' := by
  refine ⟨?_, ?_, ?_, ?_, ?_, ?_, ?_, ?_⟩
  · have hb : 48 ≤ c.toNat ∧ c.toNat ≤ 57 := by
      rw [isDigitCh, decide_eq_true_eq] at h
      exact h
    rw [isJsonWs]
    simp only [Bool.or_eq_false_iff, decide_eq_false_iff_not]
    omega
  all_goals intro he; rw [he] at h; exact absurd h (by decide)

theorem numBoundary_of_head (c : Char) (cs : List Char)
    (h : isDigitCh c = false ∧ c ≠ '.' ∧ c ≠ 'e' ∧ c ≠ 'E') : numBoundary (c :: cs) := by
  intro c2 hc2
  have : c2 = c := by
    cases hc2
    rfl
  rw [this]
  exact h

theorem numBoundary_nil : numBoundary [] := by
  intro c hc
  cases hc

/-- The first character of any rendered JSON value: never whitespace,
never a closing bracket. -/
theorem stringify_head (j : Json) :
    ∃ c cs, stringifyChars j = c :: cs ∧ isJsonWs c = false ∧ c ≠ ']' := by
  match j with
  | .null => exact ⟨'n', _, rfl, rfl, by decide⟩
  | .bool true => exact ⟨'t', _, rfl, rfl, by decide⟩
  | .bool false => exact ⟨'f', _, rfl, rfl, by decide⟩
  | .str s => exact ⟨'"', _, rfl, rfl, by decide⟩
  | .arr [] => exact ⟨'[', _, rfl, rfl, by decide⟩
  | .arr (x :: xs) => exact ⟨'[', _, rfl, rfl, by decide⟩
  | .obj [] => exact ⟨'{', _, rfl, rfl, by decide⟩
  | .obj (m :: ms) => exact ⟨'{', _, rfl, rfl, by decide⟩
  | .num (.ofNat k) =>
    obtain ⟨c, cs, hcs, hdg⟩ := natChars_head_digit k
    have hf := digit_facts hdg
    exact ⟨c, cs, hcs, hf.1, hf.2.2.2.2.2.2.2⟩
  | .num (.negSucc m) => exact ⟨'-', _, rfl, rfl, by decide⟩

theorem jsonFuel_pos (j : Json) : 1 ≤ jsonFuel j := by
  match j with
  | .null | .bool true | .bool false | .num _ | .str _ => exact le_refl 1
  | .arr [] | .obj [] => exact le_refl 1
  | .arr (x :: xs) => rw [jsonFuel]; omega
  | .obj (m :: ms) => rw [jsonFuel]; omega

theorem parseNum_intChars (n : Int) (rest : List Char) (h : numBoundary rest) :
    parseNum (intChars n ++ rest) = some (n, rest) := by
  match n with
  | .ofNat k => exact parseNum_natChars k rest h
  | .negSucc m =>
    show parseNum ('-' :: (natChars (m + 1) ++ rest)) = some (Int.negSucc m, rest)
    rw [parseNum, if_pos rfl, parseNatNum_natChars (m + 1) rest h]
    show some (-((m + 1 : Nat) : Int), rest) = some (Int.negSucc m, rest)
    rw [show ((m + 1 : Nat) : Int) = (m : Int) + 1 by push_cast; ring, ← Int.negSucc_eq]

theorem elemsFuelR_cons2 (j j2 : Json) (js2 : List Json) :
    elemsFuelR (j :: j2 :: js2) = max (jsonFuel j) (elemsFuelR (j2 :: js2)) + 1 := by
  rw [elemsFuelR]
  simp

theorem membersFuelR_cons2 (m m2 : String × Json) (ms2 : List (String × Json)) :
    membersFuelR (m :: m2 :: ms2) = max (jsonFuel m.2) (membersFuelR (m2 :: ms2)) + 1 := by
  rw [membersFuelR]
  simp

theorem elemsFuelR_pos (j : Json) (js : List Json) : 1 ≤ elemsFuelR (j :: js) := by
  cases js with
  | nil => rw [elemsFuelR]; omega
  | cons j2 js2 => rw [elemsFuelR_cons2]; omega

theorem membersFuelR_pos (m : String × Json) (ms : List (String × Json)) :
    1 ≤ membersFuelR (m :: ms) := by
  cases ms with
  | nil => rw [membersFuelR]; omega
  | cons m2 ms2 => rw [membersFuelR_cons2]; omega

theorem strChars_append (s : String) (T : List Char) :
    strChars s ++ T = '"' :: (escAll s.data ++ ('"' :: T)) := by
  simp [strChars]

theorem membersChars_single (k : String) (v : Json) :
    membersChars [(k, v)] = strChars k ++ ':' :: (stringifyChars v ++ ['}']) := by
  rw [membersChars]
  simp

theorem membersChars_cons2 (k : String) (v : Json) (m2 : String × Json)
    (ms2 : List (String × Json)) :
    membersChars ((k, v) :: m2 :: ms2) =
      strChars k ++ ':' :: (stringifyChars v ++ ',' :: membersChars (m2 :: ms2)) := by
  rw [membersChars]
  all_goals simp

theorem membersFuelR_single (k : String) (v : Json) :
    membersFuelR [(k, v)] = jsonFuel v + 1 := by
  rw [membersFuelR]

theorem membersFuelR_pair_cons2 (k : String) (v : Json) (m2 : String × Json)
    (ms2 : List (String × Json)) :
    membersFuelR ((k, v) :: m2 :: ms2) = max (jsonFuel v) (membersFuelR (m2 :: ms2)) + 1 := by
  rw [membersFuelR]
  simp

mutual

/-- Round trip: parsing the rendering of a value consumes exactly the
rendering and returns the value, for any sufficient fuel and any
continuation that cannot extend a number lexeme. -/
theorem parse_stringify : ∀ (j : Json) (fuel : Nat) (rest : List Char),
    jsonFuel j ≤ fuel → numBoundary rest →
    parseValue fuel (stringifyChars j ++ rest) = some (j, rest)
  | j, 0, _, hf, _ => absurd hf (by have := jsonFuel_pos j; omega)
  | .null, fuel + 1, rest, _, _ => by
    show expectLit ['u', 'l', 'l'] Json.null (['u', 'l', 'l'] ++ rest) = some (Json.null, rest)
    exact expectLit_append _ _ _
  | .bool true, fuel + 1, rest, _, _ => by
    show expectLit ['r', 'u', 'e'] (Json.bool true) (['r', 'u', 'e'] ++ rest) =
      some (Json.bool true, rest)
    exact expectLit_append _ _ _
  | .bool false, fuel + 1, rest, _, _ => by
    show expectLit ['a', 'l', 's', 'e'] (Json.bool false) (['a', 'l', 's', 'e'] ++ rest) =
      some (Json.bool false, rest)
    exact expectLit_append _ _ _
  | .num (.ofNat k), fuel + 1, rest, _, hb => by
    obtain ⟨c, cs, hcs, hdg⟩ := natChars_head_digit k
    have hf2 := digit_facts hdg
    have hshape : stringifyChars (Json.num (Int.ofNat k)) ++ rest = c :: (cs ++ rest) := by
      show natChars k ++ rest = c :: (cs ++ rest)
      rw [hcs, List.cons_append]
    rw [hshape, parseValue, skipWs_cons hf2.1]
    simp only []
    rw [if_neg hf2.2.1, if_neg hf2.2.2.1, if_neg hf2.2.2.2.1, if_neg hf2.2.2.2.2.1,
      if_neg hf2.2.2.2.2.2.1, if_neg hf2.2.2.2.2.2.2.1, if_pos (Or.inr hdg)]
    rw [← List.cons_append, ← hcs, parseNum_natChars k rest hb]
    rfl
  | .num (.negSucc m), fuel + 1, rest, _, hb => by
    show (parseNum ('-' :: (natChars (m + 1) ++ rest))).map (fun p => (Json.num p.1, p.2)) =
      some (Json.num (Int.negSucc m), rest)
    rw [show ('-' :: (natChars (m + 1) ++ rest)) = intChars (Int.negSucc m) ++ rest from rfl,
      parseNum_intChars (Int.negSucc m) rest hb]
    rfl
  | .str s, fuel + 1, rest, _, _ => by
    have hshape : stringifyChars (Json.str s) ++ rest =
        '"' :: (escAll s.data ++ ('"' :: rest)) := strChars_append s rest
    rw [hshape]
    show (parseStrBody (escAll s.data ++ '"' :: rest)).map
        (fun p => (Json.str ⟨p.1⟩, p.2)) = some (Json.str s, rest)
    rw [parseStrBody_escAll s.data rest]
    rfl
  | .arr [], fuel + 1, rest, _, _ => rfl
  | .arr (j :: js), fuel + 1, rest, hf, hb => by
    obtain ⟨c, cs, hcs, hws, hne⟩ := stringify_head j
    have hel : ∃ cs2, elemsChars (j :: js) ++ rest = c :: cs2 := by
      cases js with
      | nil =>
        refine ⟨cs ++ (']' :: rest), ?_⟩
        show (stringifyChars j ++ [']']) ++ rest = _
        rw [List.append_assoc, hcs, List.cons_append]
        rfl
      | cons j2 js2 =>
        refine ⟨cs ++ (',' :: (elemsChars (j2 :: js2) ++ rest)), ?_⟩
        show (stringifyChars j ++ ',' :: elemsChars (j2 :: js2)) ++ rest = _
        rw [List.append_assoc, hcs, List.cons_append]
        rfl
    obtain ⟨cs2, hcs2⟩ := hel
    have hshape : stringifyChars (Json.arr (j :: js)) ++ rest =
        '[' :: (elemsChars (j :: js) ++ rest) := by
      show ('[' :: elemsChars (j :: js)) ++ rest = _
      rw [List.cons_append]
    rw [hshape]
    show (if (skipWs (elemsChars (j :: js) ++ rest)).head? = some ']' then
        some (Json.arr [], (skipWs (elemsChars (j :: js) ++ rest)).tail)
      else (parseElemsRest fuel (skipWs (elemsChars (j :: js) ++ rest))).map
        (fun p => (Json.arr p.1, p.2))) = some (Json.arr (j :: js), rest)
    rw [hcs2, skipWs_cons hws]
    rw [if_neg (by
      rw [List.head?_cons]
      intro hx
      rw [Option.some.injEq] at hx
      exact hne hx)]
    rw [← hcs2, parse_elems j js fuel rest (by rw [jsonFuel] at hf; omega) hb]
    rfl
  | .obj [], fuel + 1, rest, _, _ => rfl
  | .obj (m :: ms), fuel + 1, rest, hf, hb => by
    obtain ⟨k, v⟩ := m
    have hmem : ∃ cs2, membersChars ((k, v) :: ms) ++ rest = '"' :: cs2 := by
      cases ms with
      | nil =>
        refine ⟨escAll k.data ++ ('"' :: ((':' :: (stringifyChars v ++ ['}'])) ++ rest)), ?_⟩
        rw [membersChars_single, List.append_assoc, strChars_append]
      | cons m2 ms2 =>
        refine ⟨escAll k.data ++
          ('"' :: ((':' :: (stringifyChars v ++ ',' :: membersChars (m2 :: ms2))) ++ rest)), ?_⟩
        rw [membersChars_cons2, List.append_assoc, strChars_append]
    obtain ⟨cs2, hcs2⟩ := hmem
    have hshape : stringifyChars (Json.obj ((k, v) :: ms)) ++ rest =
        '{' :: (membersChars ((k, v) :: ms) ++ rest) := by
      show ('{' :: membersChars ((k, v) :: ms)) ++ rest = _
      rw [List.cons_append]
    rw [hshape]
    show (if (skipWs (membersChars ((k, v) :: ms) ++ rest)).head? = some '}' then
        some (Json.obj [], (skipWs (membersChars ((k, v) :: ms) ++ rest)).tail)
      else (parseMembersRest fuel (skipWs (membersChars ((k, v) :: ms) ++ rest))).map
        (fun p => (Json.obj p.1, p.2))) = some (Json.obj ((k, v) :: ms), rest)
    rw [hcs2, skipWs_cons (show isJsonWs '"' = false from rfl)]
    rw [if_neg (by
      rw [List.head?_cons]
      intro hx
      rw [Option.some.injEq] at hx
      exact absurd hx (by decide))]
    rw [← hcs2, parse_members (k, v) ms fuel rest (by rw [jsonFuel] at hf; omega) hb]
    rfl

/-- Round trip for the element list of a non-empty array. -/
theorem parse_elems : ∀ (j : Json) (js : List Json) (fuel : Nat) (rest : List Char),
    elemsFuelR (j :: js) ≤ fuel → numBoundary rest →
    parseElemsRest fuel (elemsChars (j :: js) ++ rest) = some (j :: js, rest)
  | j, js, 0, _, hf, _ => absurd hf (by have := elemsFuelR_pos j js; omega)
  | j, [], fuel + 1, rest, hf, hb => by
    have hshape : elemsChars [j] ++ rest = stringifyChars j ++ (']' :: rest) := by
      show (stringifyChars j ++ [']']) ++ rest = _
      rw [List.append_assoc]
      rfl
    rw [hshape, parseElemsRest,
      parse_stringify j fuel (']' :: rest) (by rw [elemsFuelR] at hf; omega)
        (numBoundary_of_head ']' rest ⟨by decide, by decide, by decide, by decide⟩)]
    rfl
  | j, j2 :: js2, fuel + 1, rest, hf, hb => by
    have hshape : elemsChars (j :: j2 :: js2) ++ rest =
        stringifyChars j ++ (',' :: (elemsChars (j2 :: js2) ++ rest)) := by
      show (stringifyChars j ++ ',' :: elemsChars (j2 :: js2)) ++ rest = _
      rw [List.append_assoc]
      rfl
    rw [hshape, parseElemsRest,
      parse_stringify j fuel (',' :: (elemsChars (j2 :: js2) ++ rest))
        (by rw [elemsFuelR_cons2] at hf; omega)
        (numBoundary_of_head ',' _ ⟨by decide, by decide, by decide, by decide⟩)]
    show (parseElemsRest fuel (elemsChars (j2 :: js2) ++ rest)).map
        (fun p => (j :: p.1, p.2)) = some (j :: j2 :: js2, rest)
    rw [parse_elems j2 js2 fuel rest (by rw [elemsFuelR_cons2] at hf; omega) hb]
    rfl

/-- Round trip for the member list of a non-empty object. -/
theorem parse_members : ∀ (m : String × Json) (ms : List (String × Json)) (fuel : Nat)
      (rest : List Char),
    membersFuelR (m :: ms) ≤ fuel → numBoundary rest →
    parseMembersRest fuel (membersChars (m :: ms) ++ rest) = some (m :: ms, rest)
  | m, ms, 0, _, hf, _ => absurd hf (by have := membersFuelR_pos m ms; omega)
  | (k, v), [], fuel + 1, rest, hf, hb => by
    have hshape : membersChars [(k, v)] ++ rest =
        '"' :: (escAll k.data ++ ('"' :: (':' :: (stringifyChars v ++ ('}' :: rest))))) := by
      rw [membersChars_single, List.append_assoc, strChars_append, List.cons_append,
        List.append_assoc]
      rfl
    rw [hshape, parseMembersRest, skipWs_cons (show isJsonWs '"' = false from rfl)]
    simp only []
    rw [parseStrBody_escAll k.data]
    simp only []
    rw [skipWs_cons (show isJsonWs ':' = false from rfl)]
    simp only []
    rw [parse_stringify v fuel ('}' :: rest) (by rw [membersFuelR_single] at hf; omega)
      (numBoundary_of_head '}' rest ⟨by decide, by decide, by decide, by decide⟩)]
    rfl
  | (k, v), m2 :: ms2, fuel + 1, rest, hf, hb => by
    have hshape : membersChars ((k, v) :: m2 :: ms2) ++ rest =
        '"' :: (escAll k.data ++ ('"' :: (':' :: (stringifyChars v ++
          (',' :: (membersChars (m2 :: ms2) ++ rest)))))) := by
      rw [membersChars_cons2, List.append_assoc, strChars_append, List.cons_append,
        List.append_assoc]
      rfl
    rw [hshape, parseMembersRest, skipWs_cons (show isJsonWs '"' = false from rfl)]
    simp only []
    rw [parseStrBody_escAll k.data]
    simp only []
    rw [skipWs_cons (show isJsonWs ':' = false from rfl)]
    simp only []
    rw [parse_stringify v fuel (',' :: (membersChars (m2 :: ms2) ++ rest))
      (by rw [membersFuelR_pair_cons2] at hf; omega)
      (numBoundary_of_head ',' _ ⟨by decide, by decide, by decide, by decide⟩)]
    show (parseMembersRest fuel (membersChars (m2 :: ms2) ++ rest)).map
        (fun p => ((⟨k.data⟩, v) :: p.1, p.2)) = some ((k, v) :: m2 :: ms2, rest)
    rw [parse_members m2 ms2 fuel rest (by rw [membersFuelR_pair_cons2] at hf; omega) hb]
    rfl

end

theorem stringify_length_pos (j : Json) : 1 ≤ (stringifyChars j).length := by
  obtain ⟨c, cs, h, _, _⟩ := stringify_head j
  rw [h]
  simp

theorem elemsChars_cons2 (j j2 : Json) (js2 : List Json) :
    elemsChars (j :: j2 :: js2) = stringifyChars j ++ ',' :: elemsChars (j2 :: js2) := by
  rw [elemsChars]
  all_goals simp

mutual

/-- The fuel bound never exceeds the rendering length: parsing a
rendering with fuel `length + 1` cannot run out. -/
theorem jsonFuel_le_length : ∀ j : Json, jsonFuel j ≤ (stringifyChars j).length
  | .null => stringify_length_pos Json.null
  | .bool true => stringify_length_pos (Json.bool true)
  | .bool false => stringify_length_pos (Json.bool false)
  | .num n => stringify_length_pos (Json.num n)
  | .str s => stringify_length_pos (Json.str s)
  | .arr [] => by decide
  | .arr (j :: js) => by
    show elemsFuelR (j :: js) + 1 ≤ ('[' :: elemsChars (j :: js)).length
    have := elemsFuelR_le_length j js
    simp only [List.length_cons]
    omega
  | .obj [] => by decide
  | .obj (m :: ms) => by
    show membersFuelR (m :: ms) + 1 ≤ ('{' :: membersChars (m :: ms)).length
    have := membersFuelR_le_length m ms
    simp only [List.length_cons]
    omega
termination_by j => sizeOf j

theorem elemsFuelR_le_length : ∀ (j : Json) (js : List Json),
    elemsFuelR (j :: js) ≤ (elemsChars (j :: js)).length
  | j, [] => by
    rw [elemsFuelR]
    show jsonFuel j + 1 ≤ (stringifyChars j ++ [']']).length
    have := jsonFuel_le_length j
    simp only [List.length_append, List.length_cons, List.length_nil]
    omega
  | j, j2 :: js2 => by
    rw [elemsFuelR_cons2, elemsChars_cons2]
    have h1 := jsonFuel_le_length j
    have h2 := elemsFuelR_le_length j2 js2
    simp only [List.length_append, List.length_cons]
    omega
termination_by j js => sizeOf j + sizeOf js

theorem membersFuelR_le_length : ∀ (m : String × Json) (ms : List (String × Json)),
    membersFuelR (m :: ms) ≤ (membersChars (m :: ms)).length
  | (k, v), [] => by
    rw [membersFuelR_single, membersChars_single]
    have := jsonFuel_le_length v
    simp only [List.length_append, List.length_cons, List.length_nil]
    omega
  | (k, v), m2 :: ms2 => by
    rw [membersFuelR_pair_cons2, membersChars_cons2]
    have h1 := jsonFuel_le_length v
    have h2 := membersFuelR_le_length m2 ms2
    simp only [List.length_append, List.length_cons]
    omega
termination_by m ms => sizeOf m + sizeOf ms

end

/-- Claim C7: a blob produced by `save` loads back and saves again to
the very same text — `JSON.stringify` applied to what `JSON.parse`
returned for a previously saved collection is byte-for-byte the saved
blob. -/
theorem claim_C7_roundtrip (notes : List Note) :
    saveJson (load (some (save notes))) = save notes := by
  have hdata : (save notes).data = stringifyChars (Json.arr (notes.map noteToJson)) := rfl
  have hne : ¬ ((save notes).data = []) := by
    rw [hdata]
    obtain ⟨c, cs, h, _, _⟩ := stringify_head (Json.arr (notes.map noteToJson))
    rw [h]
    simp
  have hfuel : jsonFuel (Json.arr (notes.map noteToJson)) ≤
      (stringifyChars (Json.arr (notes.map noteToJson))).length + 1 := by
    have := jsonFuel_le_length (Json.arr (notes.map noteToJson))
    omega
  have h1 : parseValue ((stringifyChars (Json.arr (notes.map noteToJson))).length + 1)
      (stringifyChars (Json.arr (notes.map noteToJson))) =
      some (Json.arr (notes.map noteToJson), []) := by
    have h2 := parse_stringify (Json.arr (notes.map noteToJson))
      ((stringifyChars (Json.arr (notes.map noteToJson))).length + 1) [] hfuel numBoundary_nil
    rw [List.append_nil] at h2
    exact h2
  have hparse : jsonParse (save notes) = some (Json.arr (notes.map noteToJson)) := by
    rw [jsonParse, hdata, h1]
    rfl
  have hload : load (some (save notes)) = Json.arr (notes.map noteToJson) := by
    rw [load, if_neg hne, hparse]
  rw [hload]
  rfl

/-- Claim C3, counterexample: the blob `"{}"` parses successfully to an
empty object, which `load` returns as-is — not the empty collection the
claim promises for a shape mismatch. -/
theorem claim_C3_counterexample :
    load (some ⟨['{', '}']⟩) = Json.obj [] ∧ Json.obj [] ≠ Json.arr [] :=
  ⟨rfl, fun h => Json.noConfusion h⟩

/-- Claim C3 (amended): `load` never raises (it is a total function);
it returns the empty collection when the blob is absent, empty, or
fails to parse; but it performs no shape validation — any successfully
parsed value is returned unchanged, whatever its shape. -/
theorem claim_C3_load :
    (load none = Json.arr []) ∧
    (∀ raw : String, raw.data = [] → load (some raw) = Json.arr []) ∧
    (∀ raw : String, jsonParse raw = none → load (some raw) = Json.arr []) ∧
    (∀ (raw : String) (j : Json), jsonParse raw = some j → raw.data ≠ [] →
      load (some raw) = j) := by
  refine ⟨rfl, ?_, ?_, ?_⟩
  · intro raw h
    rw [load, if_pos h]
  · intro raw h
    rw [load]
    by_cases hr : raw.data = []
    · rw [if_pos hr]
    · rw [if_neg hr, h]
  · intro raw j h hne
    rw [load, if_neg hne, h]

/-- Claim C3, witness: the blob `"x"` fails to parse and loads as the
empty collection; the blob `"7"` parses to the number 7 and is returned
as-is. -/
theorem claim_C3_witness :
    load (some (⟨['x']⟩ : String)) = Json.arr [] ∧
    load (some (⟨['7']⟩ : String)) = Json.num 7 :=
  ⟨claim_C3_load.2.2.1 ⟨['x']⟩ rfl,
   claim_C3_load.2.2.2 ⟨['7']⟩ (Json.num 7) rfl (by decide)⟩

end NotesApp
